import Mathlib

/-!
Verification of the interval log engine of cassava/track (src/main.go; the
repository holds several near-duplicate drafts of the program, and the most
complete one, lines 275-533, is the one the spec was written from and the one
embedded here).  Log files are modelled as lists of characters (one `Char` per
byte; every byte the program reads or writes on its own logs is ASCII), CSV
records as lists of fields, and fields as lists of characters.  The system
clock (`currentTime`, src/main.go:439) is passed to the operations as an
explicit `now` parameter, and the informational channel ("BEGIN"/"END" lines
and warnings) is not modelled: it carries no data back into the core.
-/

namespace Track

universe u

variable {α : Type u}

/-- FormatError mirrors the Go struct at src/main.go:310-313. -/
structure FormatError where
  BadLines : List Nat
  LastIsBad : Bool
deriving DecidableEq

/-- JustIncomplete mirrors the method at src/main.go:315-317. -/
def FormatError.JustIncomplete (e : FormatError) : Bool :=
  e.BadLines.length == 1 && e.LastIsBad

/-- verifyGo is the record-classification loop of readEntries
(src/main.go:458-469): the row at 0-based index `i` is appended to BadLines as
line `i + 1` when its field count is not two, and LastIsBad is overwritten at
every row, so after the loop it describes the final row. -/
def verifyGo (i : Nat) (acc : FormatError) : List (List α) → FormatError
  | [] => acc
  | e :: rest =>
    if e.length = 2 then verifyGo (i + 1) { acc with LastIsBad := false } rest
    else verifyGo (i + 1) { BadLines := acc.BadLines ++ [i + 1], LastIsBad := true } rest

/-- verifyEntries is the FormatError computation of readEntries
(src/main.go:449-475): the error is present exactly when at least one bad line
was recorded (the source tests `formatErr.BadLines != nil`, and BadLines is
non-nil exactly when something was appended to it). -/
def verifyEntries (entries : List (List α)) : Option FormatError :=
  let fe := verifyGo 0 ⟨[], false⟩ entries
  if fe.BadLines = [] then none else some fe

/-- badIdx is the functional description of the BadLines accumulation in
verifyGo: the 1-indexed positions, offset by `i`, of the rows whose field
count is not two. -/
def badIdx (i : Nat) : List (List α) → List Nat
  | [] => []
  | e :: rest =>
    if e.length = 2 then badIdx (i + 1) rest
    else (i + 1) :: badIdx (i + 1) rest

/-- specBadLines states, in the words of claim C2, which rows are malformed:
the 1-indexed rows whose field count is neither one nor two.  It exists only
to be compared against the BadLines the source actually computes. -/
def specBadLines (entries : List (List α)) : List Nat :=
  entries.enum.filterMap
    (fun p => if p.2.length = 1 ∨ p.2.length = 2 then none else some (p.1 + 1))

/-- spokenGo is the buffer-building loop of spokenList (src/main.go:520-531):
the item at index `i` out of `n` is followed by ", " when at least two items
remain after it, by the and-separator when exactly one remains, and by nothing
when it is the last. -/
def spokenGo (n : Nat) (i : Nat) : List Int → String
  | [] => ""
  | x :: xs =>
    toString x ++
      (if i < n - 2 then ", "
       else if i < n - 1 then (if n = 2 then " and " else ", and ")
       else "") ++
      spokenGo n (i + 1) xs

/-- spokenList mirrors src/main.go:518-533. -/
def spokenList (l : List Int) : String :=
  spokenGo l.length 0 l

/-- spokenTail restates the loop of spokenList relative to the distance from
the end of the list instead of the index from its start. -/
def spokenTail : List Int → String
  | [] => ""
  | [x] => toString x
  | x :: xs => toString x ++ (if xs.length = 1 then ", and " else ", ") ++ spokenTail xs

/-- joinComma follows the wording of the spec for the diagnostics formatter:
the items joined by ", ". -/
def joinComma : List String → String
  | [] => ""
  | [x] => x
  | x :: xs => x ++ ", " ++ joinComma xs

/-- Modelled from the spec: §4.5 Duration Aggregator.  The source's Total
(src/main.go:381) is an empty stub returning nil, so the aggregation is taken
from the spec's words — the sum of end minus start over all closed records —
with timestamps modelled as integers. -/
def total (entries : List (Int × Int)) : Int :=
  (entries.map (fun r => r.2 - r.1)).sum

/-- goIsSpace models Go's unicode.IsSpace on the Latin-1 range, which covers
every character this program's data can contain. -/
def goIsSpace (c : Char) : Bool :=
  c = ' ' || c = '\t' || c = '\n' || c = '\x0b' || c = '\x0c' || c = '\r' ||
    c = '\x85' || c = '\xa0'

/-- fieldNeedsQuotes models encoding/csv's fieldNeedsQuotes for the default
Comma of ',': the empty field needs none, the literal backslash-dot field is
always quoted, and otherwise a field is quoted when it contains a comma, a
quote or a line terminator, or starts with a space. -/
def fieldNeedsQuotes (s : List Char) : Bool :=
  if s = [] then false
  else if s = ['\\', '.'] then true
  else (s.any fun c => c = ',' || c = '"' || c = '\r' || c = '\n')
    || goIsSpace (s.headD ' ')

/-- encodeField models how encoding/csv's Writer renders one field (UseCRLF is
false, so inside a quoted field only the double quote is escaped, by
doubling). -/
def encodeField (s : List Char) : List Char :=
  if fieldNeedsQuotes s then
    '"' :: (s.flatMap fun c => if c = '"' then ['"', '"'] else [c]) ++ ['"']
  else s

/-- joinFields joins encoded fields with the comma, as csv.Writer.Write does
field by field. -/
def joinFields : List (List Char) → List Char
  | [] => []
  | [x] => x
  | x :: xs => x ++ ',' :: joinFields xs

/-- encodeRecord models csv.Writer.Write of one record followed by Flush: the
encoded fields joined by the comma and terminated by the newline. -/
def encodeRecord (fields : List (List Char)) : List Char :=
  joinFields (fields.map encodeField) ++ ['\n']

/-- splitSep splits a character list at every occurrence of sep.  It models
both the line-splitting and the comma-splitting that encoding/csv's Reader
performs on the plain (quote-free, CR-free) text this program writes. -/
def splitSep (sep : Char) : List Char → List (List Char)
  | [] => [[]]
  | c :: cs =>
    if c = sep then [] :: splitSep sep cs
    else
      match splitSep sep cs with
      | [] => [[c]]
      | g :: gs => (c :: g) :: gs

/-- readAllPlain models csv.Reader.ReadAll with FieldsPerRecord = -1 on plain
text: split into lines, skip the blank lines (as the Go reader does), and
split each remaining line at the commas.  On such input ReadAll never
fails. -/
def readAllPlain (f : List Char) : List (List (List Char)) :=
  ((splitSep '\n' f).filter (fun l => decide (l ≠ []))).map (splitSep ',')

/-- readEntriesFile models readEntries (src/main.go:449-475) on a plain log:
the decoded rows together with the FormatError, if any.  The second argument
is accepted and, exactly as in the source, never used. -/
def readEntriesFile (f : List Char) (_filter : Bool) :
    List (List (List Char)) × Option FormatError :=
  let entries := readAllPlain f
  (entries, verifyEntries entries)

/-- TrackError is the result surfaced by the mutation operations: either a
structural *FormatError, or the plain error the source builds at
src/main.go:514 with the message "no incomplete entry to end" — the error the
spec names NoOpenInterval. -/
inductive TrackError where
  | formatError (fe : FormatError)
  | noOpenInterval
deriving DecidableEq

/-- plainField captures the shape of the timestamp strings this program
writes: nonempty, free of the comma, the quote and the line terminators, not
starting with a space, and not the two-character backslash-dot string that
encoding/csv special-cases.  Such a field is rendered verbatim by the
writer. -/
def plainField (s : List Char) : Bool :=
  !s.isEmpty && decide (s ≠ ['\\', '.'])
    && s.all (fun c => !(c = ',' || c = '"' || c = '\r' || c = '\n'))
    && !goIsSpace (s.headD '0')

/-- beginEntry models src/main.go:477-491.  The source returns the read error
only when force is false and the error is not a *FormatError; on plain logs
the CSV layer never produces any error other than a FormatError, so that
early return is unreachable here, and every anomaly is warned about and
overridden: a new one-field record holding the current time is appended at
end of file and nil is returned. -/
def beginEntry (f : List Char) (_force : Bool) (now : List Char) :
    List Char × Option TrackError :=
  match (readEntriesFile f false).2 with
  | some _ => (f ++ encodeRecord [now], none)
  | none => (f ++ encodeRecord [now], none)

/-- endEntry models src/main.go:493-516.  On a FormatError whose last line is
bad (and at most one bad line, unless force) it extends the last record with
the current time, seeks back from the end of the stream by the byte length of
that record's first field plus one, and rewrites from there; the source
ignores the Seek error, so a seek before the start of the file leaves the
position at end of file.  The written bytes always cover the remainder of the
file, so the result is the kept head of the file followed by the encoded
record.  On any other FormatError the error is returned; on a well-formed log
the no-open-interval error is returned.  In both failing cases the file is
untouched. -/
def endEntry (f : List Char) (force : Bool) (now : List Char) :
    List Char × Option TrackError :=
  match readEntriesFile f false with
  | (entries, some fe) =>
    if fe.LastIsBad then
      if fe.BadLines.length > 1 && !force then (f, some (.formatError fe))
      else
        let last := entries.getLastD [] ++ [now]
        let back := (last.headD []).length + 1
        let pos := if back ≤ f.length then f.length - back else f.length
        (f.take pos ++ encodeRecord last, none)
    else (f, some (.formatError fe))
  | (_, none) => (f, some .noOpenInterval)

/-- Record is the spec's data model (§3): an interval that is either still
open (start only) or closed (start and end). -/
inductive Record where
  | started (startField : List Char)
  | closed (startField stopField : List Char)
deriving DecidableEq

/-- encodeRec serializes a Record the way the source writes it: begin writes
the one-field line (src/main.go:487), end writes the two-field line
(src/main.go:504-508). -/
def encodeRec : Record → List Char
  | .started s => encodeRecord [s]
  | .closed s e => encodeRecord [s, e]

/-- Modelled from the spec: §4.1 decode — a row with exactly one field is an
open Record, exactly two fields a closed Record, any other field count is
malformed.  The source manipulates raw field lists and never builds a Record
value, so this classification comes from the spec's words. -/
def decodeFields : List (List Char) → Option Record
  | [s] => some (.started s)
  | [s, e] => some (.closed s e)
  | _ => none

theorem verifyGo_cons (i : Nat) (acc : FormatError) (e : List α) (rest : List (List α)) :
    verifyGo i acc (e :: rest)
      = if e.length = 2 then verifyGo (i + 1) { acc with LastIsBad := false } rest
        else verifyGo (i + 1) { BadLines := acc.BadLines ++ [i + 1], LastIsBad := true } rest := by
  rfl

theorem verifyGo_BadLines (l : List (List α)) : ∀ (i : Nat) (acc : FormatError),
    (verifyGo i acc l).BadLines = acc.BadLines ++ badIdx i l := by
  induction l with
  | nil => intro i acc; simp [verifyGo, badIdx]
  | cons e rest ih =>
    intro i acc
    by_cases h : e.length = 2
    · simp [verifyGo, badIdx, h, ih]
    · simp [verifyGo, badIdx, h, ih]

theorem verifyGo_LastIsBad (l : List (List α)) : ∀ (i : Nat) (acc : FormatError),
    (verifyGo i acc l).LastIsBad
      = (l.getLast?).elim acc.LastIsBad (fun e => decide (e.length ≠ 2)) := by
  induction l with
  | nil => intro i acc; simp [verifyGo]
  | cons e rest ih =>
    intro i acc
    rw [verifyGo_cons]
    cases rest with
    | nil => by_cases h : e.length = 2 <;> simp [verifyGo, h]
    | cons f rest' =>
      cases hl : (f :: rest').getLast? with
      | none => simp [List.getLast?_eq_none_iff] at hl
      | some y =>
        by_cases h : e.length = 2
        · rw [if_pos h, ih, hl, List.getLast?_cons_cons, hl]
          rfl
        · rw [if_neg h, ih, hl, List.getLast?_cons_cons, hl]
          rfl

theorem badIdx_append (l₁ l₂ : List (List α)) : ∀ i,
    badIdx i (l₁ ++ l₂) = badIdx i l₁ ++ badIdx (i + l₁.length) l₂ := by
  induction l₁ with
  | nil => intro i; simp [badIdx]
  | cons e rest ih =>
    intro i
    have harith : i + 1 + rest.length = i + (rest.length + 1) := by omega
    by_cases h : e.length = 2 <;>
      simp [badIdx, h, ih, harith]

theorem badIdx_mem {x : Nat} (l : List (List α)) : ∀ i, x ∈ badIdx i l →
    i < x ∧ x ≤ i + l.length := by
  induction l with
  | nil => intro i hx; simp [badIdx] at hx
  | cons e rest ih =>
    intro i hx
    by_cases h : e.length = 2
    · simp only [badIdx, if_pos h] at hx
      have := ih (i + 1) hx
      simp only [List.length_cons]
      omega
    · simp only [badIdx, if_neg h, List.mem_cons] at hx
      rcases hx with rfl | hx
      · simp only [List.length_cons]; omega
      · have := ih (i + 1) hx
        simp only [List.length_cons]
        omega

theorem badIdx_pairwise (l : List (List α)) : ∀ i,
    (badIdx i l).Pairwise (· < ·) := by
  induction l with
  | nil => intro i; simp [badIdx]
  | cons e rest ih =>
    intro i
    by_cases h : e.length = 2
    · simpa [badIdx, h] using ih (i + 1)
    · simp only [badIdx, if_neg h]
      refine List.Pairwise.cons (fun x hx => ?_) (ih (i + 1))
      exact (badIdx_mem rest (i + 1) hx).1

theorem badIdx_eq_nil_iff (l : List (List α)) : ∀ i,
    badIdx i l = [] ↔ ∀ e ∈ l, e.length = 2 := by
  induction l with
  | nil => intro i; simp [badIdx]
  | cons e rest ih =>
    intro i
    by_cases h : e.length = 2 <;> simp [badIdx, h, ih]

theorem badIdx_eq_enumFrom (l : List (List α)) : ∀ i,
    badIdx i l = (List.enumFrom i l).filterMap
      (fun p => if p.2.length = 2 then none else some (p.1 + 1)) := by
  induction l with
  | nil => intro i; simp [badIdx]
  | cons e rest ih =>
    intro i
    by_cases h : e.length = 2 <;>
      simp [badIdx, h, ih, List.enumFrom_cons, List.filterMap_cons]

theorem verifyEntries_eq_none_iff (entries : List (List α)) :
    verifyEntries entries = none ↔ ∀ e ∈ entries, e.length = 2 := by
  rw [← badIdx_eq_nil_iff entries 0]
  simp only [verifyEntries]
  rw [verifyGo_BadLines]
  simp only [List.nil_append]
  by_cases hb : badIdx 0 entries = [] <;> simp [hb]

theorem verifyEntries_eq_some (entries : List (List α)) (fe : FormatError)
    (h : verifyEntries entries = some fe) :
    fe.BadLines = badIdx 0 entries ∧
      fe.LastIsBad = (entries.getLast?).elim false (fun e => decide (e.length ≠ 2)) := by
  simp only [verifyEntries] at h
  by_cases hb : (verifyGo 0 ⟨[], false⟩ entries).BadLines = []
  · rw [if_pos hb] at h
    exact absurd h (by simp)
  · rw [if_neg hb] at h
    injection h with h2
    rw [← h2]
    refine ⟨?_, ?_⟩
    · rw [verifyGo_BadLines]
      rfl
    · rw [verifyGo_LastIsBad]

theorem verifyEntries_isSome_iff (entries : List (List α)) :
    (verifyEntries entries).isSome ↔ ∃ e ∈ entries, e.length ≠ 2 := by
  rw [Option.isSome_iff_ne_none, Ne, verifyEntries_eq_none_iff]
  push_neg
  rfl

theorem splitSep_ne_nil (sep : Char) (l : List Char) : splitSep sep l ≠ [] := by
  cases l with
  | nil => simp [splitSep]
  | cons c cs =>
    by_cases h : c = sep
    · simp [splitSep, h]
    · simp only [splitSep, h, if_neg, if_false]
      cases hs : splitSep sep cs <;> simp

theorem splitSep_append_sep (sep : Char) (ys : List Char) : ∀ xs : List Char,
    splitSep sep (xs ++ sep :: ys) = splitSep sep xs ++ splitSep sep ys := by
  intro xs
  induction xs with
  | nil => simp [splitSep]
  | cons c cs ih =>
    by_cases h : c = sep
    · simp [splitSep, h, ih]
    · cases hs : splitSep sep cs with
      | nil => exact absurd hs (splitSep_ne_nil sep cs)
      | cons g gs => simp [splitSep, h, ih, hs]

theorem splitSep_eq_single (sep : Char) (l : List Char) (h : ∀ c ∈ l, c ≠ sep) :
    splitSep sep l = [l] := by
  induction l with
  | nil => rfl
  | cons c cs ih =>
    have hc : c ≠ sep := h c (by simp)
    have ih' := ih (fun x hx => h x (by simp [hx]))
    simp [splitSep, hc, ih']

theorem plainField_parts {s : List Char} (h : plainField s = true) :
    s ≠ [] ∧ s ≠ ['\\', '.'] ∧
      (∀ c ∈ s, c ≠ ',' ∧ c ≠ '"' ∧ c ≠ '\r' ∧ c ≠ '\n') ∧
      goIsSpace (s.headD '0') = false := by
  unfold plainField at h
  rw [Bool.and_eq_true, Bool.and_eq_true, Bool.and_eq_true] at h
  obtain ⟨⟨⟨h1, h2⟩, h3⟩, h4⟩ := h
  refine ⟨?_, of_decide_eq_true h2, ?_, ?_⟩
  · intro hnil
    rw [hnil] at h1
    exact absurd h1 (by decide)
  · intro c hc
    have hc' := List.all_eq_true.mp h3 c hc
    refine ⟨?_, ?_, ?_, ?_⟩ <;> (intro heq; rw [heq] at hc'; exact absurd hc' (by decide))
  · rw [Bool.not_eq_true'] at h4
    exact h4

theorem plainField_ne_nil {s : List Char} (h : plainField s = true) : s ≠ [] :=
  (plainField_parts h).1

theorem plainField_no_comma {s : List Char} (h : plainField s = true) :
    ∀ c ∈ s, c ≠ ',' :=
  fun c hc => ((plainField_parts h).2.2.1 c hc).1

theorem plainField_no_newline {s : List Char} (h : plainField s = true) :
    ∀ c ∈ s, c ≠ '\n' :=
  fun c hc => ((plainField_parts h).2.2.1 c hc).2.2.2

theorem plainField_needsQuotes {s : List Char} (h : plainField s = true) :
    fieldNeedsQuotes s = false := by
  obtain ⟨h1, h2, h3, h4⟩ := plainField_parts h
  unfold fieldNeedsQuotes
  rw [if_neg h1, if_neg h2]
  cases s with
  | nil => exact absurd rfl h1
  | cons c cs =>
    rw [List.headD_cons] at h4 ⊢
    rw [h4, Bool.or_false]
    rw [List.any_eq_false]
    intro x hx
    obtain ⟨hx1, hx2, hx3, hx4⟩ := h3 x hx
    simp [hx1, hx2, hx3, hx4]

theorem encodeField_plain {s : List Char} (h : plainField s = true) :
    encodeField s = s := by
  simp [encodeField, plainField_needsQuotes h]

theorem encodeRecord_single {s : List Char} (h : plainField s = true) :
    encodeRecord [s] = s ++ ['\n'] := by
  simp [encodeRecord, joinFields, encodeField_plain h]

theorem encodeRecord_pair {s e : List Char} (hs : plainField s = true)
    (he : plainField e = true) :
    encodeRecord [s, e] = s ++ ',' :: (e ++ ['\n']) := by
  simp [encodeRecord, joinFields, encodeField_plain hs, encodeField_plain he]

theorem readAllPlain_append_line (p s : List Char)
    (hp : p = [] ∨ ∃ q, p = q ++ ['\n'])
    (hs1 : s ≠ []) (hs2 : ∀ c ∈ s, c ≠ '\n') :
    readAllPlain (p ++ s ++ ['\n']) = readAllPlain p ++ [splitSep ',' s] := by
  have hline : splitSep '\n' (p ++ s ++ ['\n']) = splitSep '\n' (p ++ s) ++ [[]] := by
    have harr : p ++ s ++ ['\n'] = (p ++ s) ++ '\n' :: [] := by simp
    rw [harr, splitSep_append_sep]
    rfl
  rcases hp with rfl | ⟨q, rfl⟩
  · simp only [List.nil_append] at hline ⊢
    simp only [readAllPlain]
    rw [hline, splitSep_eq_single _ _ hs2]
    simp [hs1, splitSep]
  · have hq : splitSep '\n' ((q ++ ['\n']) ++ s) = splitSep '\n' q ++ [s] := by
      have harr : (q ++ ['\n']) ++ s = q ++ '\n' :: s := by simp
      rw [harr, splitSep_append_sep, splitSep_eq_single _ _ hs2]
    have hqp : splitSep '\n' (q ++ ['\n']) = splitSep '\n' q ++ [[]] := by
      have harr : q ++ ['\n'] = q ++ '\n' :: [] := rfl
      rw [harr, splitSep_append_sep]
      rfl
    simp only [readAllPlain]
    rw [hline, hq, hqp]
    simp [hs1, List.filter_append]

theorem spokenGo_cons (n i : Nat) (x : Int) (xs : List Int) :
    spokenGo n i (x :: xs)
      = toString x ++
          (if i < n - 2 then ", "
           else if i < n - 1 then (if n = 2 then " and " else ", and ")
           else "") ++
          spokenGo n (i + 1) xs := by
  rfl

theorem spokenTail_cons₂ (x y : Int) (ys : List Int) :
    spokenTail (x :: y :: ys)
      = toString x ++ (if (y :: ys).length = 1 then ", and " else ", ")
          ++ spokenTail (y :: ys) := by
  rfl

theorem joinComma_cons₂ (a b : String) (t : List String) :
    joinComma (a :: b :: t) = a ++ ", " ++ joinComma (b :: t) := by
  rfl

theorem spokenGo_eq_tail (n : Nat) (hn : 3 ≤ n) : ∀ (xs : List Int) (i : Nat),
    i + xs.length = n → spokenGo n i xs = spokenTail xs := by
  intro xs
  induction xs with
  | nil => intro i _; rfl
  | cons x xs ih =>
    intro i hlen
    simp only [List.length_cons] at hlen
    cases xs with
    | nil =>
      simp only [List.length_nil] at hlen
      have h1 : ¬ i < n - 2 := by omega
      have h2 : ¬ i < n - 1 := by omega
      rw [spokenGo_cons, if_neg h1, if_neg h2]
      show toString x ++ "" ++ "" = spokenTail [x]
      simp [spokenTail]
    | cons y ys =>
      simp only [List.length_cons] at hlen
      cases ys with
      | nil =>
        simp only [List.length_nil] at hlen
        have h1 : ¬ i < n - 2 := by omega
        have h2 : i < n - 1 := by omega
        have h3 : n ≠ 2 := by omega
        have h4 : ¬ i + 1 < n - 2 := by omega
        have h5 : ¬ i + 1 < n - 1 := by omega
        have hone : ([y] : List Int).length = 1 := rfl
        rw [spokenGo_cons, if_neg h1, if_pos h2, if_neg h3,
          spokenGo_cons, if_neg h4, if_neg h5, spokenTail_cons₂, if_pos hone]
        simp [spokenGo, spokenTail]
      | cons z zs =>
        simp only [List.length_cons, List.length_nil] at hlen
        have h1 : i < n - 2 := by omega
        have hlen' : (i + 1) + (y :: z :: zs).length = n := by
          simp only [List.length_cons]; omega
        have hrhs : spokenTail (x :: y :: z :: zs)
            = toString x ++ ", " ++ spokenTail (y :: z :: zs) := by
          rw [spokenTail_cons₂, if_neg (by simp)]
        rw [spokenGo_cons, if_pos h1, ih (i + 1) hlen', hrhs]

theorem spokenTail_join : ∀ (rest : List Int) (x y : Int),
    spokenTail (x :: y :: rest)
      = joinComma ((x :: y :: rest).dropLast.map toString) ++ ", and "
          ++ toString ((x :: y :: rest).getLastD 0) := by
  intro rest
  induction rest with
  | nil =>
    intro x y
    have hone : ([y] : List Int).length = 1 := rfl
    rw [spokenTail_cons₂, if_pos hone]
    simp [spokenTail, joinComma, List.getLastD_cons]
  | cons z zs ih =>
    intro x y
    have hlhs : spokenTail (x :: y :: z :: zs)
        = toString x ++ ", " ++ spokenTail (y :: z :: zs) := by
      rw [spokenTail_cons₂, if_neg (by simp)]
    rw [hlhs, ih y z]
    have hdrop : (x :: y :: z :: zs).dropLast = x :: (y :: z :: zs).dropLast := by
      rw [List.dropLast_cons₂]
    have hdrop2 : (y :: z :: zs).dropLast = y :: (z :: zs).dropLast := by
      rw [List.dropLast_cons₂]
    have hglast : (x :: y :: z :: zs).getLastD 0 = (y :: z :: zs).getLastD 0 := by
      simp only [List.getLastD_cons]
    rw [hdrop, hglast, List.map_cons]
    simp only [hdrop2, List.map_cons]
    rw [joinComma_cons₂]
    simp [String.append_assoc]

/-- C8: the diagnostics formatter renders one item as itself, two items joined
by " and ", and three or more items joined by ", " with the final separator
", and "; in particular spokenList [5] is "5", spokenList [5, 6] is
"5 and 6", and spokenList [5, 6, 7] is "5, 6, and 7". -/
theorem spokenList_renders :
    (∀ a : Int, spokenList [a] = toString a) ∧
    (∀ a b : Int, spokenList [a, b] = toString a ++ " and " ++ toString b) ∧
    (∀ l : List Int, 3 ≤ l.length →
      spokenList l
        = joinComma (l.dropLast.map toString) ++ ", and " ++ toString (l.getLastD 0)) ∧
    spokenList [(5 : Int)] = "5" ∧ spokenList [(5 : Int), 6] = "5 and 6" ∧
    spokenList [(5 : Int), 6, 7] = "5, 6, and 7" := by
  refine ⟨?_, ?_, ?_, rfl, rfl, rfl⟩
  · intro a
    show toString a ++ "" ++ "" = toString a
    simp
  · intro a b
    show toString a ++ " and " ++ (toString b ++ "" ++ "") = _
    simp [String.append_assoc]
  · intro l hl
    cases l with
    | nil => simp at hl
    | cons x l1 =>
      cases l1 with
      | nil => simp at hl
      | cons y l2 =>
        cases l2 with
        | nil => simp at hl
        | cons z zs =>
          have hthree : 3 ≤ (x :: y :: z :: zs).length := hl
          rw [show spokenList (x :: y :: z :: zs)
              = spokenGo (x :: y :: z :: zs).length 0 (x :: y :: z :: zs) from rfl]
          rw [spokenGo_eq_tail _ hthree _ 0 (by simp)]
          exact spokenTail_join (z :: zs) x y

/-- C8 witness: the three-or-more law of spokenList_renders instantiated at
the list [5, 6, 7]. -/
theorem spokenList_renders_witness :
    spokenList [(5 : Int), 6, 7]
      = joinComma ([(5 : Int), 6, 7].dropLast.map toString) ++ ", and "
          ++ toString ([(5 : Int), 6, 7].getLastD 0) :=
  spokenList_renders.2.2.1 [5, 6, 7] (by decide)

/-- C10: the diagnostics formatter renders the empty list of line numbers as
the empty string: the loop in src/main.go:520-531 runs zero times. -/
theorem spokenList_empty : spokenList [] = "" := rfl

/-- C5: total is the sum of end minus start over the closed records, and
reordering the records does not change it. -/
theorem total_is_sum_and_perm_invariant :
    (∀ l : List (Int × Int), total l = (l.map (fun r => r.2 - r.1)).sum) ∧
    (∀ l l' : List (Int × Int), l.Perm l' → total l = total l') := by
  refine ⟨fun l => rfl, fun l l' h => ?_⟩
  unfold total
  exact (h.map _).sum_eq

/-- C5 witness: the permutation law of total_is_sum_and_perm_invariant at a
concrete two-record log and its transposition. -/
theorem total_is_sum_and_perm_invariant_witness :
    total [((0 : Int), (5 : Int)), ((2 : Int), (3 : Int))]
      = total [((2 : Int), (3 : Int)), ((0 : Int), (5 : Int))] :=
  total_is_sum_and_perm_invariant.2 _ _ (by decide)

/-- C2 counterexample: on the one-row log whose single row has exactly one
field (an open record), the validator reports BadLines = [1] and
LastIsBad = true, while the claim's reading (one-field rows are well-formed)
expects no bad line and a well-formed final row. -/
theorem verifyEntries_oneField_counterexample :
    verifyEntries ([[['a']]] : List (List (List Char))) = some ⟨[1], true⟩ ∧
      specBadLines ([[['a']]] : List (List (List Char))) = [] := by
  exact ⟨by decide, by decide⟩

/-- C2 (amended): the report's BadLines is exactly the ordered list of
1-indexed numbers of the rows whose field count differs from two — so a
one-field open row counts as bad — LastIsBad is true iff the final row's
field count differs from two, and a report is returned iff at least one row
has a field count other than two. -/
theorem verifyEntries_badLines_characterization (entries : List (List α)) :
    (∀ fe, verifyEntries entries = some fe →
      fe.BadLines = (List.enum entries).filterMap
          (fun p => if p.2.length = 2 then none else some (p.1 + 1)) ∧
      fe.LastIsBad = (entries.getLast?).elim false (fun e => decide (e.length ≠ 2))) ∧
    ((verifyEntries entries).isSome ↔ ∃ e ∈ entries, e.length ≠ 2) := by
  refine ⟨fun fe h => ?_, verifyEntries_isSome_iff entries⟩
  obtain ⟨h1, h2⟩ := verifyEntries_eq_some entries fe h
  refine ⟨?_, h2⟩
  rw [h1, badIdx_eq_enumFrom]
  rfl

/-- C2 witness: the characterization applied to the one-row log of a single
one-field row, whose report is BadLines = [1], LastIsBad = true. -/
theorem verifyEntries_badLines_characterization_witness :
    (⟨[1], true⟩ : FormatError).BadLines
        = (List.enum ([[['a']]] : List (List (List Char)))).filterMap
            (fun p => if p.2.length = 2 then none else some (p.1 + 1)) ∧
      (⟨[1], true⟩ : FormatError).LastIsBad
        = (([[['a']]] : List (List (List Char))).getLast?).elim false
            (fun e => decide (e.length ≠ 2)) :=
  (verifyEntries_badLines_characterization _).1 ⟨[1], true⟩ (by decide)

/-- C9: whenever reading a log yields a format error, its BadLines is
nonempty, strictly increasing, and every entry lies between 1 and the number
of rows; and a format error is produced iff at least one row is classified
bad (field count other than two). -/
theorem readEntriesFile_invariants (f : List Char) :
    (∀ fe, (readEntriesFile f false).2 = some fe →
      fe.BadLines ≠ [] ∧ fe.BadLines.Pairwise (· < ·) ∧
        ∀ x ∈ fe.BadLines, 1 ≤ x ∧ x ≤ (readEntriesFile f false).1.length) ∧
    ((readEntriesFile f false).2.isSome
      ↔ ∃ e ∈ (readEntriesFile f false).1, e.length ≠ 2) := by
  refine ⟨fun fe h => ?_, verifyEntries_isSome_iff (readAllPlain f)⟩
  have h' : verifyEntries (readAllPlain f) = some fe := h
  obtain ⟨h1, h2⟩ := verifyEntries_eq_some _ _ h'
  refine ⟨?_, ?_, ?_⟩
  · intro hnil
    rw [h1] at hnil
    have hnone : verifyEntries (readAllPlain f) = none :=
      (verifyEntries_eq_none_iff _).mpr ((badIdx_eq_nil_iff _ 0).mp hnil)
    rw [hnone] at h'
    exact Option.noConfusion h'
  · rw [h1]
    exact badIdx_pairwise _ 0
  · intro x hx
    rw [h1] at hx
    have hm := badIdx_mem _ 0 hx
    refine ⟨by omega, ?_⟩
    show x ≤ (readAllPlain f).length
    omega

/-- C9 witness: the invariants applied to the one-line log "x", whose report
is BadLines = [1], LastIsBad = true. -/
theorem readEntriesFile_invariants_witness :
    (⟨[1], true⟩ : FormatError).BadLines ≠ [] ∧
      (⟨[1], true⟩ : FormatError).BadLines.Pairwise (· < ·) ∧
      ∀ x ∈ (⟨[1], true⟩ : FormatError).BadLines,
        1 ≤ x ∧ x ≤ (readEntriesFile ('x' :: '\n' :: []) false).1.length :=
  (readEntriesFile_invariants ('x' :: '\n' :: [])).1 ⟨[1], true⟩ (by decide)

theorem FormatError.ext' {a b : FormatError} (h1 : a.BadLines = b.BadLines)
    (h2 : a.LastIsBad = b.LastIsBad) : a = b := by
  cases a
  cases b
  simp only at h1 h2
  rw [h1, h2]

theorem getLastD_concat {β : Type u} (l : List β) (a d : β) :
    (l ++ [a]).getLastD d = a := by
  rw [List.getLastD_eq_getLast?, List.getLast?_concat]
  rfl

theorem verifyEntries_concat_bad (E : List (List (List Char)))
    (row : List (List Char)) (hrow : row.length ≠ 2) :
    verifyEntries (E ++ [row])
      = some ⟨badIdx 0 E ++ [E.length + 1], true⟩ := by
  have hB : (verifyGo 0 ⟨[], false⟩ (E ++ [row])).BadLines
      = badIdx 0 E ++ [E.length + 1] := by
    rw [verifyGo_BadLines, badIdx_append]
    simp [badIdx, hrow]
  have hL : (verifyGo 0 ⟨[], false⟩ (E ++ [row])).LastIsBad = true := by
    rw [verifyGo_LastIsBad, List.getLast?_concat]
    simp [hrow]
  simp only [verifyEntries]
  rw [if_neg (by rw [hB]; simp)]
  exact congrArg some (FormatError.ext' hB hL)

/-- C3: on a log all of whose records are closed — the empty log included —
endEntry fails with the no-open-interval error ("no incomplete entry to end",
src/main.go:514; the spec's NoOpenInterval) and leaves the log unchanged. -/
theorem endEntry_noOpenInterval (f : List Char) (force : Bool) (now : List Char)
    (h : ∀ e ∈ readAllPlain f, e.length = 2) :
    endEntry f force now = (f, some TrackError.noOpenInterval) := by
  have hv : verifyEntries (readAllPlain f) = none := (verifyEntries_eq_none_iff _).mpr h
  simp [endEntry, readEntriesFile, hv]

/-- C3 witness: endEntry on the empty log. -/
theorem endEntry_noOpenInterval_witness :
    endEntry [] true ['t'] = ([], some TrackError.noOpenInterval) :=
  endEntry_noOpenInterval [] true ['t'] (by decide)

/-- C6: beginEntry on the empty log writes exactly one line holding the single
current-time field, and reading that log back yields exactly one open
(one-field) record. -/
theorem beginEntry_empty (force : Bool) (now : List Char)
    (h : plainField now = true) :
    beginEntry [] force now = (now ++ ['\n'], none) ∧
      readAllPlain (now ++ ['\n']) = [[now]] := by
  constructor
  · have hb : beginEntry [] force now = ([] ++ encodeRecord [now], none) := by
      unfold beginEntry
      cases (readEntriesFile [] false).2 <;> rfl
    rw [hb, encodeRecord_single h]
    rfl
  · have h2 := readAllPlain_append_line [] now (Or.inl rfl)
      (plainField_ne_nil h) (plainField_no_newline h)
    rw [splitSep_eq_single ',' now (plainField_no_comma h)] at h2
    have h0 : readAllPlain ([] : List Char) = [] := rfl
    rw [h0] at h2
    simpa using h2

/-- C6 witness: beginEntry on the empty log at the concrete time "t". -/
theorem beginEntry_empty_witness :
    beginEntry [] true ['t'] = (['t'] ++ ['\n'], none) ∧
      readAllPlain (['t'] ++ ['\n']) = [[['t']]] :=
  beginEntry_empty true ['t'] (by decide)

/-- C7: for timestamp-shaped fields (nonempty and free of the separator and
the csv metacharacters), writing a record and decoding the written log
returns the same record: an open record round-trips with the end field
absent, a closed record with both fields equal. -/
theorem encodeRec_decodeFields_roundTrip (s e : List Char)
    (hs : plainField s = true) (he : plainField e = true) :
    (readAllPlain (encodeRec (Record.started s))).map decodeFields
        = [some (Record.started s)] ∧
      (readAllPlain (encodeRec (Record.closed s e))).map decodeFields
        = [some (Record.closed s e)] := by
  have h0 : readAllPlain ([] : List Char) = [] := rfl
  constructor
  · rw [show encodeRec (Record.started s) = encodeRecord [s] from rfl,
      encodeRecord_single hs]
    have h2 := readAllPlain_append_line [] s (Or.inl rfl)
      (plainField_ne_nil hs) (plainField_no_newline hs)
    rw [splitSep_eq_single ',' s (plainField_no_comma hs), h0] at h2
    simp only [List.nil_append] at h2
    rw [h2]
    rfl
  · rw [show encodeRec (Record.closed s e) = encodeRecord [s, e] from rfl,
      encodeRecord_pair hs he]
    have harr : s ++ ',' :: (e ++ ['\n']) = (s ++ ',' :: e) ++ ['\n'] := by simp
    rw [harr]
    have hline_ne : s ++ ',' :: e ≠ [] := by
      cases s <;> simp
    have hline_nl : ∀ c ∈ s ++ ',' :: e, c ≠ '\n' := by
      intro c hc
      rcases List.mem_append.mp hc with hc | hc
      · exact plainField_no_newline hs c hc
      · rcases List.mem_cons.mp hc with rfl | hc
        · decide
        · exact plainField_no_newline he c hc
    have h2 := readAllPlain_append_line [] (s ++ ',' :: e) (Or.inl rfl)
      hline_ne hline_nl
    have hsplit : splitSep ',' (s ++ ',' :: e) = [s, e] := by
      rw [splitSep_append_sep, splitSep_eq_single ',' s (plainField_no_comma hs),
        splitSep_eq_single ',' e (plainField_no_comma he)]
      rfl
    rw [hsplit, h0] at h2
    simp only [List.nil_append] at h2
    rw [h2]
    rfl

/-- C7 witness: the round trip at the concrete fields "s" and "e". -/
theorem encodeRec_decodeFields_roundTrip_witness :
    (readAllPlain (encodeRec (Record.started ['s']))).map decodeFields
        = [some (Record.started ['s'])] ∧
      (readAllPlain (encodeRec (Record.closed ['s'] ['e']))).map decodeFields
        = [some (Record.closed ['s'] ['e'])] :=
  encodeRec_decodeFields_roundTrip ['s'] ['e'] (by decide) (by decide)

/-- C1: on a log whose final record is open (a trailing one-field line, the
field timestamp-shaped), a successful endEntry rewrites only that final line:
every byte before it is unchanged, the log afterwards parses to the former
records followed by a two-field record whose first field is byte-identical to
the open record's start field, and the rewrite position is end-of-stream
minus the byte length of that first field plus one (its separator). -/
theorem endEntry_rewritesTail (p s now : List Char) (force : Bool)
    (hp : p = [] ∨ ∃ q, p = q ++ ['\n'])
    (hs : plainField s = true) (hnow : plainField now = true)
    (hok : force = true ∨ ∀ e ∈ readAllPlain p, e.length = 2) :
    endEntry (p ++ s ++ ['\n']) force now
        = (p ++ (s ++ ',' :: (now ++ ['\n'])), none) ∧
      readAllPlain (p ++ (s ++ ',' :: (now ++ ['\n'])))
        = readAllPlain p ++ [[s, now]] ∧
      (p ++ s ++ ['\n']).length - (s.length + 1) = p.length := by
  have hentries : readAllPlain (p ++ s ++ ['\n']) = readAllPlain p ++ [[s]] := by
    have h2 := readAllPlain_append_line p s hp
      (plainField_ne_nil hs) (plainField_no_newline hs)
    rw [splitSep_eq_single ',' s (plainField_no_comma hs)] at h2
    exact h2
  have hlen : (p ++ s ++ ['\n']).length = p.length + (s.length + 1) := by
    simp [List.length_append]
  refine ⟨?_, ?_, ?_⟩
  · have hread : readEntriesFile (p ++ s ++ ['\n']) false
        = (readAllPlain p ++ [[s]],
           some ⟨badIdx 0 (readAllPlain p) ++ [(readAllPlain p).length + 1], true⟩) := by
      show (readAllPlain (p ++ s ++ ['\n']),
        verifyEntries (readAllPlain (p ++ s ++ ['\n']))) = _
      rw [hentries, verifyEntries_concat_bad _ _ (by simp)]
    have hback : s.length + 1 ≤ (p ++ s ++ ['\n']).length := by
      rw [hlen]; omega
    have hpos : (p ++ s ++ ['\n']).length - (s.length + 1) = p.length := by
      rw [hlen]; omega
    have htake : (p ++ s ++ ['\n']).take p.length = p := by
      rw [List.append_assoc, List.take_left]
    unfold endEntry
    rw [hread]
    rcases hok with rfl | hclosed
    · simp [hback, hpos, htake, getLastD_concat, encodeRecord_pair hs hnow]
    · have hnil : badIdx 0 (readAllPlain p) = [] :=
        (badIdx_eq_nil_iff _ 0).mpr hclosed
      simp [hnil, hback, hpos, htake, getLastD_concat, encodeRecord_pair hs hnow]
  · have harr : p ++ (s ++ ',' :: (now ++ ['\n']))
        = p ++ (s ++ ',' :: now) ++ ['\n'] := by simp
    rw [harr]
    have hline_ne : s ++ ',' :: now ≠ [] := by
      cases s <;> simp
    have hline_nl : ∀ c ∈ s ++ ',' :: now, c ≠ '\n' := by
      intro c hc
      rcases List.mem_append.mp hc with hc | hc
      · exact plainField_no_newline hs c hc
      · rcases List.mem_cons.mp hc with rfl | hc
        · decide
        · exact plainField_no_newline hnow c hc
    have h2 := readAllPlain_append_line p (s ++ ',' :: now) hp hline_ne hline_nl
    have hsplit : splitSep ',' (s ++ ',' :: now) = [s, now] := by
      rw [splitSep_append_sep, splitSep_eq_single ',' s (plainField_no_comma hs),
        splitSep_eq_single ',' now (plainField_no_comma hnow)]
      rfl
    rw [hsplit] at h2
    exact h2
  · rw [hlen]
    omega

/-- C1 witness: ending the one-record open log "s" at time "t". -/
theorem endEntry_rewritesTail_witness :
    endEntry ([] ++ ['s'] ++ ['\n']) true ['t']
        = ([] ++ (['s'] ++ ',' :: (['t'] ++ ['\n'])), none) :=
  (endEntry_rewritesTail [] ['s'] ['t'] true (Or.inl rfl)
    (by decide) (by decide) (Or.inl rfl)).1

/-- C4 counterexample: the log "a,b,c" then "x,y" has an anomaly that is not
just-incomplete (the malformed row is the first of two, the final row is
fine), yet beginEntry in strict mode (force = false) succeeds and appends the
new record instead of failing without writing. -/
theorem beginEntry_tolerates_counterexample :
    verifyEntries (readAllPlain
        ('a' :: ',' :: 'b' :: ',' :: 'c' :: '\n' :: 'x' :: ',' :: 'y' :: '\n' :: []))
      = some ⟨[1], false⟩ ∧
    FormatError.JustIncomplete ⟨[1], false⟩ = false ∧
    beginEntry ('a' :: ',' :: 'b' :: ',' :: 'c' :: '\n' :: 'x' :: ',' :: 'y' :: '\n' :: [])
        false ['t']
      = ('a' :: ',' :: 'b' :: ',' :: 'c' :: '\n' :: 'x' :: ',' :: 'y' :: '\n'
          :: 't' :: '\n' :: [], none) := by
  exact ⟨by decide, by decide, by decide⟩

/-- C4 (amended): beginEntry never fails on a structural anomaly: whatever
FormatError validation reports — just-incomplete or not — and in either mode,
it warns and appends the new open record; the only failing path in the source
is a non-FormatError read error with force false, which a plain log cannot
produce. -/
theorem beginEntry_always_appends (f : List Char) (force : Bool) (now : List Char) :
    beginEntry f force now = (f ++ encodeRecord [now], none) := by
  unfold beginEntry
  cases (readEntriesFile f false).2 <;> rfl

end Track
